import Mathlib

/-!
NumericalMethods: pivoting, back substitution and the LU solve.

A shallow embedding of `src/solveSystem.cpp` (class `Matrix` of `src/matrix.hpp`).

* `double` entries are modelled by exact rationals `ℚ`.  Lean's `x / 0 = 0` stands
  in for the non-finite value an IEEE division by zero produces; no statement below
  depends on the value of a quotient whose divisor is zero.
* `ulong` values are natural numbers below `2 ^ 64`; the two places where the source
  can wrap (`rowToBeInterchanged + 1` and `cols - 1`) are reduced modulo `2 ^ 64`.
* `double **matrix` is modelled by an unchecked two-index lookup `Nat → Nat → ℚ`.
* A call either ends the process with an exit code (`Except.error code`) or returns
  a value (`Except.ok v`).
-/

namespace NumericalMethods

/-- Number of values of the C++ type `ulong` (64-bit unsigned). -/
def ULONG_SIZE : Nat := 18446744073709551616

/-- The class `Matrix`: `ulong rows, cols; double **matrix;`. -/
structure Matrix where
  rows : Nat
  cols : Nat
  matrix : Nat → Nat → ℚ
  rows_lt : rows < ULONG_SIZE
  cols_lt : cols < ULONG_SIZE

namespace Matrix

/-- The constructor `Matrix(rows, cols)`: storage is zero-initialised.  The dimensions
are `ulong` arguments, hence reduced modulo `2 ^ 64`. -/
def zeros (rows cols : Nat) : Matrix where
  rows := rows % ULONG_SIZE
  cols := cols % ULONG_SIZE
  matrix := fun _ _ => 0
  rows_lt := Nat.mod_lt _ (by decide)
  cols_lt := Nat.mod_lt _ (by decide)

/-- The assignment `this->matrix[i][j] = v`. -/
def setEntry (m : Matrix) (i j : Nat) (v : ℚ) : Matrix :=
  { m with matrix := fun a b => if a = i ∧ b = j then v else m.matrix a b }

/-- The index expression `this->cols - 1` in `ulong` arithmetic. -/
def lastCol (m : Matrix) : Nat := (m.cols + ULONG_SIZE - 1) % ULONG_SIZE

/-- Modelled from the spec: the body of `Matrix::interchangeRows(r1, r2)` is not in the
sources (only its declaration, `swap two rows`, is).  Per the specification it
swaps the two full rows `r1` and `r2` and leaves everything else as it is. -/
def interchangeRows (m : Matrix) (r1 r2 : Nat) : Matrix :=
  { m with matrix := fun a b =>
      if a = r1 then m.matrix r2 b else if a = r2 then m.matrix r1 b else m.matrix a b }

/-! ### `pivotMatrix` -/

/-- The loop `while(i < rows && matrix[i][rowToBeInterchanged]==0) ++i;` started at `i`;
the first argument bounds the number of iterations (`rows - i` suffices). -/
def pivotScan (m : Matrix) (rowToBeInterchanged : Nat) : Nat → Nat → Nat
  | 0, i => i
  | fuel + 1, i =>
    if i < m.rows ∧ m.matrix i rowToBeInterchanged = 0 then
      pivotScan m rowToBeInterchanged fuel (i + 1)
    else i

/-- The value of `i` when the search loop of `pivotMatrix` is left:
`ulong i = rowToBeInterchanged + 1;` followed by the loop. -/
def pivotSearch (m : Matrix) (rowToBeInterchanged : Nat) : Nat :=
  let i := (rowToBeInterchanged + 1) % ULONG_SIZE
  pivotScan m rowToBeInterchanged (m.rows - i) i

/-- The method `Matrix::pivotMatrix`, instrumented: the first component lists the calls
`interchangeRows(r1, r2)` that were made, the second is the outcome (`exit(4)` after
`Cannot pivot.`, or the matrix after the interchange). -/
def pivotMatrixTraced (m : Matrix) (rowToBeInterchanged : Nat) :
    List (Nat × Nat) × Except Nat Matrix :=
  let i := pivotSearch m rowToBeInterchanged
  if i = m.rows then
    ([], Except.error 4)
  else
    ([(rowToBeInterchanged, i)], Except.ok (m.interchangeRows rowToBeInterchanged i))

/-- The method `Matrix::pivotMatrix`: its outcome. -/
def pivotMatrix (m : Matrix) (rowToBeInterchanged : Nat) : Except Nat Matrix :=
  (pivotMatrixTraced m rowToBeInterchanged).2

/-- The calls of `interchangeRows` made by `Matrix::pivotMatrix`. -/
def pivotMatrixCalls (m : Matrix) (rowToBeInterchanged : Nat) : List (Nat × Nat) :=
  (pivotMatrixTraced m rowToBeInterchanged).1

/-! ### `backSubstitution` -/

/-- The inner loop of `backSubstitution` for the outer index `i`:
`for(ulong j = rows; j > i; --j) sum += matrix[i-1][j-1] * solutionMatrix.matrix[j-1][0];`
The first numeric argument is the current `j`, the second the running `sum`. -/
def backSubstitutionSum (m solutionMatrix : Matrix) (i : Nat) : Nat → ℚ → ℚ
  | 0, sum => sum
  | j + 1, sum =>
    if j + 1 > i then
      backSubstitutionSum m solutionMatrix i j
        (sum + m.matrix (i - 1) j * solutionMatrix.matrix j 0)
    else sum

/-- The outer loop of `backSubstitution`: `for(ulong i = rows; i > 0; --i)`, with
`matrix[i-1][0] = (matrix[i-1][cols-1] - sum) / matrix[i-1][i-1]` stored in the solution.
The numeric argument is the current `i`. -/
def backSubstitutionLoop (m : Matrix) : Nat → Matrix → Matrix
  | 0, solutionMatrix => solutionMatrix
  | i + 1, solutionMatrix =>
    let sum := backSubstitutionSum m solutionMatrix (i + 1) solutionMatrix.rows 0
    backSubstitutionLoop m i
      (solutionMatrix.setEntry i 0 ((m.matrix i m.lastCol - sum) / m.matrix i i))

/-- The method `Matrix::backSubstitution`.  Its body contains no `exit`: it always
returns the solution matrix. -/
def backSubstitution (m : Matrix) : Except Nat Matrix :=
  let solutionMatrix := zeros m.rows 1
  Except.ok (backSubstitutionLoop m solutionMatrix.rows solutionMatrix)

/-! ### `solveTriangularMatrix` -/

/-- The inner loop of the forward pass of `solveTriangularMatrix`, after `n` iterations:
`for(ulong j = 0; j < i; ++j) sum += triangularMatrices.matrix[i][j] * Z.matrix[j][0];`. -/
def forwardSum (triangularMatrices Z : Matrix) (i : Nat) : Nat → ℚ
  | 0 => 0
  | n + 1 =>
    forwardSum triangularMatrices Z i n + triangularMatrices.matrix i n * Z.matrix n 0

/-- The forward pass (`//Compute Z`) of `solveTriangularMatrix` after `n` iterations of
its outer loop `for(ulong i = 0; i < temporaryMatrix.rows; ++i)`. -/
def forwardLoop (temporaryMatrix triangularMatrices : Matrix) : Nat → Matrix → Matrix
  | 0, Z => Z
  | n + 1, Z =>
    let Z1 := forwardLoop temporaryMatrix triangularMatrices n Z
    let sum := forwardSum triangularMatrices Z1 n n
    Z1.setEntry n 0
      ((temporaryMatrix.matrix n temporaryMatrix.lastCol - sum) / triangularMatrices.matrix n n)

/-- The copy loop `for(ulong j = i+1; j < rows; ++j) upperTriangular.matrix[i][j] =
triangularMatrices.matrix[i][j];` after `n` iterations (columns `i+1 .. i+n`). -/
def upperRowLoop (triangularMatrices : Matrix) (i : Nat) : Nat → Matrix → Matrix
  | 0, upperTriangular => upperTriangular
  | n + 1, upperTriangular =>
    (upperRowLoop triangularMatrices i n upperTriangular).setEntry i (i + 1 + n)
      (triangularMatrices.matrix i (i + 1 + n))

/-- The loop `//Create upper triangular matrix` of `solveTriangularMatrix` after `n`
iterations of its outer loop. -/
def upperLoop (temporaryMatrix triangularMatrices Z : Matrix) : Nat → Matrix → Matrix
  | 0, upperTriangular => upperTriangular
  | n + 1, upperTriangular =>
    let u1 := upperLoop temporaryMatrix triangularMatrices Z n upperTriangular
    let u2 := upperRowLoop triangularMatrices n (temporaryMatrix.rows - (n + 1)) u1
    let u3 := u2.setEntry n n 1
    u3.setEntry n temporaryMatrix.lastCol (Z.matrix n 0)

/-- The method `Matrix::solveTriangularMatrix`.  The definition of
`triangularFactorizationCrouts` is not in the sources, so the factorization is a
parameter: applied to the copy of `*this` it either ends the process or yields the
working copy as it left it (`temporaryMatrix`) and its return value
(`triangularMatrices`). -/
def solveTriangularMatrix (triangularFactorizationCrouts : Matrix → Except Nat (Matrix × Matrix))
    (m : Matrix) : Except Nat Matrix :=
  match triangularFactorizationCrouts m with
  | Except.error code => Except.error code
  | Except.ok (temporaryMatrix, triangularMatrices) =>
    let Z := forwardLoop temporaryMatrix triangularMatrices temporaryMatrix.rows
      (zeros temporaryMatrix.rows 1)
    let upperTriangular := upperLoop temporaryMatrix triangularMatrices Z temporaryMatrix.rows
      (zeros temporaryMatrix.rows temporaryMatrix.cols)
    backSubstitution upperTriangular

/-! ### The factorization as the specification describes it -/

/-- The lower factor `L` encoded by a factorization result: its entries on and below the
diagonal, zero above. -/
def lowerPart (triangularMatrices : Matrix) (i j : Nat) : ℚ :=
  if j ≤ i then triangularMatrices.matrix i j else 0

/-- The upper factor `U` encoded by a factorization result: its entries strictly above
the diagonal, the diagonal taken as `1`, zero below. -/
def upperPart (triangularMatrices : Matrix) (i j : Nat) : ℚ :=
  if i < j then triangularMatrices.matrix i j else if i = j then 1 else 0

/-- Modelled from the spec: part of the absent `triangularFactorizationCrouts`, the sum
`Σ_{j<n} F[i][j] * F[j][k]` of the Crout recurrence, accumulated from `j = 0` upwards. -/
def croutSum (F : Matrix) (i k : Nat) : Nat → ℚ
  | 0 => 0
  | n + 1 => croutSum F i k n + F.matrix i n * F.matrix n k

/-- Modelled from the spec: part of the absent `triangularFactorizationCrouts`, the column
of `L` for pivot column `k`, rows `k .. k+n-1`:
`L[i][k] = A[i][k] - Σ_{j<k} L[i][j]*U[j][k]`. -/
def croutColumnLoop (A : Matrix) (k : Nat) : Nat → Matrix → Matrix
  | 0, F => F
  | n + 1, F =>
    let F1 := croutColumnLoop A k n F
    F1.setEntry (k + n) k (A.matrix (k + n) k - croutSum F1 (k + n) k k)

/-- Modelled from the spec: part of the absent `triangularFactorizationCrouts`, the row of
`U` for pivot column `k`, columns `k+1 .. k+n`:
`U[k][j] = (A[k][j] - Σ_{i<k} L[k][i]*U[i][j]) / L[k][k]`. -/
def croutRowLoop (A : Matrix) (k : Nat) : Nat → Matrix → Matrix
  | 0, F => F
  | n + 1, F =>
    let F1 := croutRowLoop A k n F
    F1.setEntry k (k + 1 + n)
      ((A.matrix k (k + 1 + n) - croutSum F1 k (k + 1 + n) k) / F1.matrix k k)

/-- Modelled from the spec: part of the absent `triangularFactorizationCrouts`, its first
`n` pivot columns: for each `k`, if the current
diagonal entry of the working copy is exactly zero, pivot on column `k` (fatal if that
fails), then compute the column of `L` and the row of `U`. -/
def croutLoop : Nat → Matrix × Matrix → Except Nat (Matrix × Matrix)
  | 0, state => Except.ok state
  | k + 1, state =>
    match croutLoop k state with
    | Except.error code => Except.error code
    | Except.ok (A, F) =>
      match (if A.matrix k k = 0 then pivotMatrix A k else Except.ok A) with
      | Except.error code => Except.error code
      | Except.ok A1 =>
        Except.ok (A1, croutRowLoop A1 k (A1.rows - (k + 1))
          (croutColumnLoop A1 k (A1.rows - k) F))

/-- Modelled from the spec: the definition of `Matrix::triangularFactorizationCrouts` is
not in the sources (only its declaration is).  This follows the specification of the
triangular factorization (Crout's method, augmented): pivot columns `k` from `0` to
`rows - 1`, pivoting when the diagonal entry is exactly zero, with the stated
recurrences; the result is the working copy as left by the pivoting together with a
`rows x rows` matrix holding `L` on and below the diagonal and `U` strictly above. -/
def triangularFactorizationCrouts (m : Matrix) : Except Nat (Matrix × Matrix) :=
  croutLoop m.rows (m, zeros m.rows m.rows)

/-! ### The phases of `solveTriangularMatrix` -/

/-- The vector `Z` of `solveTriangularMatrix` when its forward pass (`//Compute Z`) is
over: `Matrix Z(temporaryMatrix.rows, 1)` followed by the loop over all rows. -/
def forwardPass (temporaryMatrix triangularMatrices : Matrix) : Matrix :=
  forwardLoop temporaryMatrix triangularMatrices temporaryMatrix.rows
    (zeros temporaryMatrix.rows 1)

/-- The matrix `upperTriangular` of `solveTriangularMatrix` on which `backSubstitution` is
called: `Matrix upperTriangular(temporaryMatrix.rows, temporaryMatrix.cols)` followed by
the loop `//Create upper triangular matrix`. -/
def assembledUpperTriangular (temporaryMatrix triangularMatrices : Matrix) : Matrix :=
  upperLoop temporaryMatrix triangularMatrices (forwardPass temporaryMatrix triangularMatrices)
    temporaryMatrix.rows (zeros temporaryMatrix.rows temporaryMatrix.cols)

/-! ### `backSubstitution`, instrumented with its memory accesses -/

/-- The `ulong` expression `v - 1` (also `--v`): it wraps to `2 ^ 64 - 1` when `v = 0`. -/
def ulongPred (v : Nat) : Nat := (v + ULONG_SIZE - 1) % ULONG_SIZE

/-- What an execution of `backSubstitution` does to memory and to its loop counters. -/
inductive Event where
  /-- A read of `this->matrix[row][col]`. -/
  | matrixRead (row col : Nat)
  /-- A read of `solutionMatrix.matrix[row][0]`. -/
  | solutionRead (row : Nat)
  /-- A write of `solutionMatrix.matrix[row][0]`. -/
  | solutionWrite (row : Nat)
  /-- A count-down step `--i` or `--j` applied to a counter holding `value`. -/
  | decrement (value : Nat)
  /-- A division whose divisor is `this->matrix[row][row]`. -/
  | divide (row : Nat)
  deriving DecidableEq

/-- An element access is in bounds for a matrix with the dimensions of `m` (the solution
has `m.rows` rows), and a count-down step does not wrap below zero. -/
def Event.inBounds (m : Matrix) : Event → Prop
  | Event.matrixRead row col => row < m.rows ∧ col < m.cols
  | Event.solutionRead row => row < m.rows
  | Event.solutionWrite row => row < m.rows
  | Event.decrement value => 0 < value
  | Event.divide _ => True

/-- A division does not have a zero divisor. -/
def Event.divisorNonzero (m : Matrix) : Event → Prop
  | Event.divide row => m.matrix row row ≠ 0
  | _ => True

/-- The inner loop of `backSubstitution` with `ulong` counters and the accesses it makes:
`for(ulong j = rows; j > i; --j) sum += matrix[i-1][j-1] * solutionMatrix.matrix[j-1][0];`
The first argument bounds the number of iterations; `none` means it was exhausted. -/
def backSubstitutionSumTraced (m solutionMatrix : Matrix) (i : Nat) :
    Nat → Nat → ℚ × List Event → Option (ℚ × List Event)
  | 0, j, state => if j > i then none else some state
  | fuel + 1, j, (sum, trace) =>
    if j > i then
      backSubstitutionSumTraced m solutionMatrix i fuel (ulongPred j)
        (sum + m.matrix (ulongPred i) (ulongPred j) * solutionMatrix.matrix (ulongPred j) 0,
         trace ++ [Event.matrixRead (ulongPred i) (ulongPred j),
           Event.solutionRead (ulongPred j), Event.decrement j])
    else some (sum, trace)

/-- The outer loop of `backSubstitution` with `ulong` counters and the accesses it makes:
`for(ulong i = rows; i > 0; --i)`.  The first argument bounds the number of iterations;
`none` means it (or the bound of an inner loop) was exhausted. -/
def backSubstitutionLoopTraced (m : Matrix) :
    Nat → Nat → Matrix × List Event → Option (Matrix × List Event)
  | 0, i, state => if i > 0 then none else some state
  | fuel + 1, i, (solutionMatrix, trace) =>
    if i > 0 then
      match backSubstitutionSumTraced m solutionMatrix i solutionMatrix.rows
          solutionMatrix.rows (0, trace) with
      | none => none
      | some (sum, trace1) =>
        backSubstitutionLoopTraced m fuel (ulongPred i)
          (solutionMatrix.setEntry (ulongPred i) 0
              ((m.matrix (ulongPred i) m.lastCol - sum) / m.matrix (ulongPred i) (ulongPred i)),
            trace1 ++ [Event.matrixRead (ulongPred i) m.lastCol,
              Event.matrixRead (ulongPred i) (ulongPred i), Event.divide (ulongPred i),
              Event.solutionWrite (ulongPred i), Event.decrement i])
    else some (solutionMatrix, trace)

/-- The method `Matrix::backSubstitution` with `ulong` counters, together with the list of
the accesses, count-down steps and divisions of the execution.  Both loops get as many
iterations as the matrix has rows. -/
def backSubstitutionTraced (m : Matrix) : Option (Matrix × List Event) :=
  let solutionMatrix := zeros m.rows 1
  backSubstitutionLoopTraced m solutionMatrix.rows solutionMatrix.rows (solutionMatrix, [])

instance Event.decidableInBounds (m : Matrix) (e : Event) : Decidable (e.inBounds m) := by
  cases e <;> simp only [Event.inBounds] <;> infer_instance

instance Event.decidableDivisorNonzero (m : Matrix) (e : Event) :
    Decidable (e.divisorNonzero m) := by
  cases e <;> simp only [Event.divisorNonzero] <;> infer_instance

/-- The events `backSubstitution` can produce while its outer counter is at most `i`, for
a solution with `rows` rows and the last column index `last`. -/
def Event.ofBackSubstitution (rows last i : Nat) (e : Event) : Prop :=
  (∃ r k, r < i ∧ r < k ∧ k < rows ∧
    (e = Event.matrixRead r k ∨ e = Event.solutionRead k ∨ e = Event.decrement (k + 1))) ∨
  (∃ r, r < i ∧
    (e = Event.matrixRead r last ∨ e = Event.matrixRead r r ∨ e = Event.divide r ∨
      e = Event.solutionWrite r ∨ e = Event.decrement (r + 1)))

/-! ### Example matrices -/

/-- A matrix given by the list of its rows (entries that are not listed read as `0`). -/
def ofRows (rows cols : Nat) (entries : List (List ℚ)) : Matrix where
  rows := rows % ULONG_SIZE
  cols := cols % ULONG_SIZE
  matrix := fun i j => (entries.getD i []).getD j 0
  rows_lt := Nat.mod_lt _ (by decide)
  cols_lt := Nat.mod_lt _ (by decide)

/-- A 3 x 3 matrix whose first column is `0, 1, 5`: the first non-zero entry below the
diagonal position `(0, 0)` is in row 1, the largest one in row 2. -/
def pivotExample : Matrix := ofRows 3 3 [[0, 2, 3], [1, 0, 4], [5, 6, 0]]

/-- A 2 x 3 upper-triangular augmented system: `2 x0 + x1 = 5`, `4 x1 = 8`. -/
def backExample : Matrix := ofRows 2 3 [[2, 1, 5], [0, 4, 8]]

/-- A 1 x 2 matrix whose only diagonal entry is zero. -/
def zeroDiagonalExample : Matrix := ofRows 1 2 [[0, 1]]

/-- The augmented system `4x + y = 1`, `2x + 3y = 2` of the specification. -/
def systemExample : Matrix := ofRows 2 3 [[4, 1, 1], [2, 3, 2]]

/-- A singular augmented system: the first column is zero. -/
def singularExample : Matrix := ofRows 2 3 [[0, 1, 1], [0, 2, 3]]

/-- The Crout factors of `systemExample`: `L = [[4, 0], [2, 5/2]]` on and below the
diagonal and the entry `1/4` of `U` above it. -/
def systemFactors : Matrix := ofRows 2 2 [[4, 1 / 4], [2, 5 / 2]]

/-- A 2 x 3 augmented system that is not upper triangular: `backExample` with the entry
`7` below the diagonal. -/
def lowerNoiseExample : Matrix := ofRows 2 3 [[2, 1, 5], [7, 4, 8]]

/-! ## Properties of `pivotMatrix` -/

theorem pivotScan_spec (m : Matrix) (p : Nat) :
    ∀ (fuel i : Nat), i ≤ m.rows → m.rows - i ≤ fuel →
      i ≤ pivotScan m p fuel i ∧ pivotScan m p fuel i ≤ m.rows ∧
      (∀ k, i ≤ k → k < pivotScan m p fuel i → m.matrix k p = 0) ∧
      (pivotScan m p fuel i < m.rows → m.matrix (pivotScan m p fuel i) p ≠ 0) := by
  intro fuel
  induction fuel with
  | zero =>
    intro i hi hf
    have hir : i = m.rows := by omega
    refine ⟨le_refl _, ?_, ?_, ?_⟩
    · simpa [pivotScan] using hi
    · intro k hk1 hk2
      simp only [pivotScan] at hk2
      omega
    · intro h
      simp only [pivotScan] at h
      omega
  | succ fuel ih =>
    intro i hi hf
    by_cases hc : i < m.rows ∧ m.matrix i p = 0
    · have hstep : pivotScan m p (fuel + 1) i = pivotScan m p fuel (i + 1) := by
        simp only [pivotScan, if_pos hc]
      rw [hstep]
      obtain ⟨h1, h2, h3, h4⟩ := ih (i + 1) (by omega) (by omega)
      refine ⟨by omega, h2, ?_, h4⟩
      intro k hk1 hk2
      rcases Nat.eq_or_lt_of_le hk1 with hk | hk
      · rw [← hk]; exact hc.2
      · exact h3 k hk hk2
    · have hstep : pivotScan m p (fuel + 1) i = i := by
        simp only [pivotScan, if_neg hc]
      rw [hstep]
      refine ⟨le_refl _, hi, ?_, ?_⟩
      · intro k hk1 hk2
        omega
      · intro h hz
        exact hc ⟨h, hz⟩

theorem pivotSearch_spec (m : Matrix) (p : Nat) (hp : p < m.rows) :
    p < pivotSearch m p ∧ pivotSearch m p ≤ m.rows ∧
    (∀ k, p < k → k < pivotSearch m p → m.matrix k p = 0) ∧
    (pivotSearch m p < m.rows → m.matrix (pivotSearch m p) p ≠ 0) := by
  have hlt := m.rows_lt
  have hmod : (p + 1) % ULONG_SIZE = p + 1 := Nat.mod_eq_of_lt (by omega)
  obtain ⟨h1, h2, h3, h4⟩ := pivotScan_spec m p (m.rows - (p + 1)) (p + 1) (by omega) (le_refl _)
  simp only [pivotSearch, hmod]
  exact ⟨by omega, h2, fun k hk1 hk2 => h3 k (by omega) hk2, h4⟩

theorem pivotSearch_eq_rows_iff (m : Matrix) (p : Nat) (hp : p < m.rows) :
    pivotSearch m p = m.rows ↔ ¬ ∃ i, p < i ∧ i < m.rows ∧ m.matrix i p ≠ 0 := by
  obtain ⟨h1, h2, h3, h4⟩ := pivotSearch_spec m p hp
  constructor
  · rintro h ⟨i, hi1, hi2, hi3⟩
    exact hi3 (h3 i hi1 (by omega))
  · intro h
    by_contra hne
    have hlt : pivotSearch m p < m.rows := by omega
    exact h ⟨pivotSearch m p, h1, hlt, h4 hlt⟩

/-- Claim C4: for a row index `pivotRow` of the matrix, `pivotMatrix(pivotRow)` ends in the
fatal `Cannot pivot` error (exit code 4) if and only if no row `i` with
`pivotRow < i < rows` has a non-zero entry in column `pivotRow`; in that case no row
interchange is performed, and in every other case the call returns normally. -/
theorem pivotMatrix_fatal_iff (m : Matrix) (pivotRow : Nat) (hp : pivotRow < m.rows) :
    (pivotMatrix m pivotRow = Except.error 4 ↔
      ¬ ∃ i, pivotRow < i ∧ i < m.rows ∧ m.matrix i pivotRow ≠ 0) ∧
    (pivotMatrix m pivotRow = Except.error 4 → pivotMatrixCalls m pivotRow = []) ∧
    ((∃ i, pivotRow < i ∧ i < m.rows ∧ m.matrix i pivotRow ≠ 0) →
      ∃ m', pivotMatrix m pivotRow = Except.ok m') := by
  have key := pivotSearch_eq_rows_iff m pivotRow hp
  by_cases hs : pivotSearch m pivotRow = m.rows
  · have hno := key.mp hs
    refine ⟨?_, ?_, ?_⟩
    · simp only [pivotMatrix, pivotMatrixTraced, if_pos hs]
      exact ⟨fun _ => hno, fun _ => trivial⟩
    · intro _
      simp only [pivotMatrixCalls, pivotMatrixTraced, if_pos hs]
    · intro h
      exact absurd h hno
  · have hex : ∃ i, pivotRow < i ∧ i < m.rows ∧ m.matrix i pivotRow ≠ 0 := by
      by_contra hno
      exact hs (key.mpr hno)
    refine ⟨?_, ?_, ?_⟩
    · simp only [pivotMatrix, pivotMatrixTraced, if_neg hs]
      constructor
      · intro h
        cases h
      · intro h
        exact absurd hex h
    · intro h
      simp only [pivotMatrix, pivotMatrixTraced, if_neg hs] at h
      cases h
    · intro _
      exact ⟨m.interchangeRows pivotRow (pivotSearch m pivotRow),
        by simp only [pivotMatrix, pivotMatrixTraced, if_neg hs]⟩

theorem pivotMatrix_fatal_iff_witness :
    0 < pivotExample.rows ∧
    ((pivotMatrix pivotExample 0 = Except.error 4 ↔
      ¬ ∃ i, 0 < i ∧ i < pivotExample.rows ∧ pivotExample.matrix i 0 ≠ 0) ∧
    (pivotMatrix pivotExample 0 = Except.error 4 → pivotMatrixCalls pivotExample 0 = []) ∧
    ((∃ i, 0 < i ∧ i < pivotExample.rows ∧ pivotExample.matrix i 0 ≠ 0) →
      ∃ m', pivotMatrix pivotExample 0 = Except.ok m')) :=
  ⟨by decide, pivotMatrix_fatal_iff pivotExample 0 (by decide)⟩

/-- Claim C5: for `pivotRow < rows` such that some row below `pivotRow` has a non-zero
entry in column `pivotRow`, `pivotMatrix(pivotRow)` calls `interchangeRows(pivotRow, i)`
exactly once, where `i` is the least index greater than `pivotRow` with
`matrix[i][pivotRow] != 0`: every row strictly between `pivotRow` and `i` has a zero in
that column (the first non-zero entry is taken, whatever the magnitudes below it). -/
theorem pivotMatrix_calls_first_nonzero (m : Matrix) (pivotRow : Nat) (hp : pivotRow < m.rows)
    (hex : ∃ k, pivotRow < k ∧ k < m.rows ∧ m.matrix k pivotRow ≠ 0) :
    ∃ i, pivotMatrixCalls m pivotRow = [(pivotRow, i)] ∧
      pivotRow < i ∧ i < m.rows ∧ m.matrix i pivotRow ≠ 0 ∧
      (∀ k, pivotRow < k → k < i → m.matrix k pivotRow = 0) ∧
      (∀ k, pivotRow < k → k < m.rows → m.matrix k pivotRow ≠ 0 → i ≤ k) := by
  obtain ⟨h1, h2, h3, h4⟩ := pivotSearch_spec m pivotRow hp
  have hs : pivotSearch m pivotRow ≠ m.rows := by
    intro h
    exact (pivotSearch_eq_rows_iff m pivotRow hp).mp h hex
  have hlt : pivotSearch m pivotRow < m.rows := by omega
  refine ⟨pivotSearch m pivotRow, ?_, h1, hlt, h4 hlt, h3, ?_⟩
  · simp only [pivotMatrixCalls, pivotMatrixTraced, if_neg hs]
  · intro k hk1 _ hk3
    by_contra hlt2
    exact hk3 (h3 k hk1 (by omega))

theorem pivotMatrix_calls_first_nonzero_witness :
    pivotMatrixCalls pivotExample 0 = [(0, 1)] ∧
    ∃ i, pivotMatrixCalls pivotExample 0 = [(0, i)] ∧
      0 < i ∧ i < pivotExample.rows ∧ pivotExample.matrix i 0 ≠ 0 ∧
      (∀ k, 0 < k → k < i → pivotExample.matrix k 0 = 0) ∧
      (∀ k, 0 < k → k < pivotExample.rows → pivotExample.matrix k 0 ≠ 0 → i ≤ k) :=
  ⟨by simp [pivotMatrixCalls, pivotMatrixTraced, pivotSearch, pivotScan, pivotExample, ofRows,
      ULONG_SIZE],
   pivotMatrix_calls_first_nonzero pivotExample 0 (by decide)
    ⟨1, by decide, by decide, by simp [pivotExample, ofRows]⟩⟩

/-- Claim C6: for `pivotRow < min(rows, cols)`, whenever `pivotMatrix(pivotRow)` returns
without error (row interchange being the swap of two full rows), the entry at the
diagonal position `(pivotRow, pivotRow)` of the resulting matrix is non-zero. -/
theorem pivotMatrix_diagonal_ne_zero (m m' : Matrix) (pivotRow : Nat)
    (hp : pivotRow < min m.rows m.cols) (hret : pivotMatrix m pivotRow = Except.ok m') :
    m'.matrix pivotRow pivotRow ≠ 0 := by
  have hpr : pivotRow < m.rows := lt_of_lt_of_le hp (min_le_left _ _)
  obtain ⟨h1, h2, h3, h4⟩ := pivotSearch_spec m pivotRow hpr
  by_cases hs : pivotSearch m pivotRow = m.rows
  · simp only [pivotMatrix, pivotMatrixTraced, if_pos hs] at hret
    cases hret
  · simp only [pivotMatrix, pivotMatrixTraced, if_neg hs] at hret
    have hm : m' = m.interchangeRows pivotRow (pivotSearch m pivotRow) := by
      cases hret
      rfl
    have hlt : pivotSearch m pivotRow < m.rows := by omega
    rw [hm]
    simp only [interchangeRows, if_true]
    exact h4 hlt

theorem pivotMatrix_diagonal_ne_zero_witness :
    0 < min pivotExample.rows pivotExample.cols ∧
    pivotMatrix pivotExample 0 = Except.ok (pivotExample.interchangeRows 0 1) ∧
    (pivotExample.interchangeRows 0 1).matrix 0 0 ≠ 0 :=
  have h : pivotMatrix pivotExample 0 = Except.ok (pivotExample.interchangeRows 0 1) := by
    simp [pivotMatrix, pivotMatrixTraced, pivotSearch, pivotScan, pivotExample, ofRows,
      ULONG_SIZE]
  ⟨by decide, h, pivotMatrix_diagonal_ne_zero pivotExample _ 0 (by decide) h⟩

/-! ## Properties of `backSubstitution` -/

theorem lastCol_eq (m : Matrix) (n : Nat) (hc : m.cols = n + 1) : m.lastCol = n := by
  have h := m.cols_lt
  simp only [lastCol, ULONG_SIZE] at *
  omega

theorem zeros_rows (r c : Nat) (hr : r < ULONG_SIZE) : (zeros r c).rows = r :=
  Nat.mod_eq_of_lt hr

theorem zeros_cols (r c : Nat) (hc : c < ULONG_SIZE) : (zeros r c).cols = c :=
  Nat.mod_eq_of_lt hc

theorem backSubstitutionSum_eq (m sol : Matrix) (i : Nat) :
    ∀ (j : Nat) (s : ℚ), backSubstitutionSum m sol i j s =
      s + ∑ k in Finset.Ico i j, m.matrix (i - 1) k * sol.matrix k 0 := by
  intro j
  induction j with
  | zero =>
    intro s
    simp [backSubstitutionSum]
  | succ j ih =>
    intro s
    by_cases h : j + 1 > i
    · have hij : i ≤ j := by omega
      simp only [backSubstitutionSum, if_pos h]
      rw [ih, Finset.sum_Ico_succ_top hij]
      ring
    · have hji : j + 1 ≤ i := by omega
      simp only [backSubstitutionSum, if_neg h]
      rw [Finset.Ico_eq_empty_of_le hji]
      simp

theorem backSubstitutionLoop_rows (m : Matrix) :
    ∀ (i : Nat) (sol : Matrix), (backSubstitutionLoop m i sol).rows = sol.rows ∧
      (backSubstitutionLoop m i sol).cols = sol.cols := by
  intro i
  induction i with
  | zero =>
    intro sol
    exact ⟨rfl, rfl⟩
  | succ i ih =>
    intro sol
    simp only [backSubstitutionLoop]
    exact ih _

theorem backSubstitutionLoop_frame (m : Matrix) :
    ∀ (i : Nat) (sol : Matrix) (a b : Nat), i ≤ a →
      (backSubstitutionLoop m i sol).matrix a b = sol.matrix a b := by
  intro i
  induction i with
  | zero =>
    intro sol a b _
    rfl
  | succ i ih =>
    intro sol a b ha
    simp only [backSubstitutionLoop]
    rw [ih _ a b (by omega)]
    have hne : ¬ (a = i ∧ b = 0) := by
      intro h
      omega
    simp only [setEntry, if_neg hne]

theorem backSubstitutionLoop_entry (m : Matrix) :
    ∀ (i : Nat) (sol : Matrix) (a : Nat), a < i →
      (backSubstitutionLoop m i sol).matrix a 0 =
        (m.matrix a m.lastCol -
          ∑ k in Finset.Ico (a + 1) sol.rows,
            m.matrix a k * (backSubstitutionLoop m i sol).matrix k 0) / m.matrix a a := by
  intro i
  induction i with
  | zero =>
    intro sol a ha
    omega
  | succ i ih =>
    intro sol a ha
    simp only [backSubstitutionLoop]
    rcases Nat.lt_or_ge a i with hlt | hge
    · exact ih _ a hlt
    · have hai : a = i := by omega
      subst hai
      rw [backSubstitutionLoop_frame m a _ a 0 (le_refl _)]
      have hsum : ∀ k ∈ Finset.Ico (a + 1) sol.rows,
          m.matrix a k * (backSubstitutionLoop m a
            (sol.setEntry a 0 ((m.matrix a m.lastCol -
              backSubstitutionSum m sol (a + 1) sol.rows 0) / m.matrix a a))).matrix k 0 =
          m.matrix a k * sol.matrix k 0 := by
        intro k hk
        have hk1 : a + 1 ≤ k := (Finset.mem_Ico.mp hk).1
        rw [backSubstitutionLoop_frame m a _ k 0 (by omega)]
        have hka : k ≠ a := by omega
        simp [setEntry, hka]
      rw [Finset.sum_congr rfl hsum, backSubstitutionSum_eq]
      simp [setEntry]

theorem backSubstitution_eq (m : Matrix) :
    backSubstitution m = Except.ok (backSubstitutionLoop m m.rows (zeros m.rows 1)) := by
  simp only [backSubstitution, zeros_rows m.rows 1 m.rows_lt]

theorem backSubstitution_solves (m : Matrix) (n : Nat) (hr : m.rows = n) (hc : m.cols = n + 1)
    (hupper : ∀ i j, j < i → i < n → m.matrix i j = 0) (hdiag : ∀ i, i < n → m.matrix i i ≠ 0)
    (i : Nat) (hi : i < n) :
    ∑ j in Finset.range n,
      m.matrix i j * (backSubstitutionLoop m m.rows (zeros m.rows 1)).matrix j 0 =
        m.matrix i n := by
  have hx := backSubstitutionLoop_entry m m.rows (zeros m.rows 1) i (by omega)
  rw [zeros_rows m.rows 1 m.rows_lt, lastCol_eq m n hc, hr] at hx
  rw [hr]
  have hd := hdiag i hi
  rw [Finset.range_eq_Ico, ← Finset.sum_Ico_consecutive _ (Nat.zero_le i) (le_of_lt hi),
    Finset.sum_eq_sum_Ico_succ_bot hi]
  have hzero : ∑ j in Finset.Ico 0 i,
      m.matrix i j * (backSubstitutionLoop m n (zeros n 1)).matrix j 0 = 0 := by
    apply Finset.sum_eq_zero
    intro j hj
    rw [hupper i j (Finset.mem_Ico.mp hj).2 hi, zero_mul]
  rw [hzero, hx]
  field_simp

theorem backExample_diag : ∀ i, i < 2 → backExample.matrix i i ≠ 0 := by
  intro i hi
  interval_cases i <;> simp [backExample, ofRows]

theorem backExample_upper : ∀ i j, j < i → i < 2 → backExample.matrix i j = 0 := by
  intro i j hj hi
  interval_cases i
  · omega
  · interval_cases j
    simp [backExample, ofRows]

/-- Claim C2: for an `n x (n+1)` augmented matrix `[U|y]` whose coefficient block is upper
triangular with every diagonal entry non-zero, the vector `x` returned by
`backSubstitution` is an exact solution: for every row `i`, the sum over `j` of
`U[i][j] * x[j]` equals `y[i]`. -/
theorem backSubstitution_exact (m : Matrix) (n : Nat) (hr : m.rows = n) (hc : m.cols = n + 1)
    (hupper : ∀ i j, j < i → i < n → m.matrix i j = 0)
    (hdiag : ∀ i, i < n → m.matrix i i ≠ 0) :
    ∃ x, backSubstitution m = Except.ok x ∧
      ∀ i, i < n → ∑ j in Finset.range n, m.matrix i j * x.matrix j 0 = m.matrix i n :=
  ⟨backSubstitutionLoop m m.rows (zeros m.rows 1), backSubstitution_eq m,
    fun i hi => backSubstitution_solves m n hr hc hupper hdiag i hi⟩

theorem backSubstitution_exact_witness :
    ∃ x, backSubstitution backExample = Except.ok x ∧
      ∀ i, i < 2 →
        ∑ j in Finset.range 2, backExample.matrix i j * x.matrix j 0 = backExample.matrix i 2 :=
  backSubstitution_exact backExample 2 (by decide) (by decide) backExample_upper backExample_diag

/-- Claim C8: for an `n x (n+1)` matrix `M` with non-zero diagonal, the vector `x` returned
by `backSubstitution` satisfies, for every row `i < n`,
`x[i] = (M[i][n] - sum over j with i < j < n of M[i][j] * x[j]) / M[i][i]`; the rows are
computed from the last to the first, and once the loop has reached index `i` the entries
`x[j]` with `j ≥ i` are never changed again, so each `x[j]` used is already final. -/
theorem backSubstitution_recurrence (m : Matrix) (n : Nat) (hr : m.rows = n)
    (hc : m.cols = n + 1) (_hdiag : ∀ i, i < n → m.matrix i i ≠ 0) :
    (∃ x, backSubstitution m = Except.ok x ∧
      ∀ i, i < n → x.matrix i 0 =
        (m.matrix i n - ∑ j in Finset.Ico (i + 1) n, m.matrix i j * x.matrix j 0) /
          m.matrix i i) ∧
    (∀ (i : Nat) (partialSolution : Matrix) (j : Nat), i ≤ j →
      (backSubstitutionLoop m i partialSolution).matrix j 0 = partialSolution.matrix j 0) := by
  refine ⟨⟨backSubstitutionLoop m m.rows (zeros m.rows 1), backSubstitution_eq m, ?_⟩, ?_⟩
  · intro i hi
    have hx := backSubstitutionLoop_entry m m.rows (zeros m.rows 1) i (by omega)
    rw [zeros_rows m.rows 1 m.rows_lt, lastCol_eq m n hc, hr] at hx
    rw [hr]
    exact hx
  · intro i sol j hij
    exact backSubstitutionLoop_frame m i sol j 0 hij

theorem backSubstitution_recurrence_witness :
    (∃ x, backSubstitution backExample = Except.ok x ∧
      ∀ i, i < 2 → x.matrix i 0 =
        (backExample.matrix i 2 -
          ∑ j in Finset.Ico (i + 1) 2, backExample.matrix i j * x.matrix j 0) /
          backExample.matrix i i) ∧
    (∀ (i : Nat) (partialSolution : Matrix) (j : Nat), i ≤ j →
      (backSubstitutionLoop backExample i partialSolution).matrix j 0 =
        partialSolution.matrix j 0) :=
  backSubstitution_recurrence backExample 2 (by decide) (by decide) backExample_diag

/-- Claim C7, as stated, fails: the 1 x 2 matrix `[0 | 1]` has a zero diagonal entry, yet
`backSubstitution` reports no fatal error on it. -/
theorem backSubstitution_zero_diagonal_not_fatal :
    ¬ (∀ m : Matrix, (∃ i, i < m.rows ∧ m.matrix i i = 0) →
      ∃ code, backSubstitution m = Except.error code) := by
  intro h
  obtain ⟨code, hcode⟩ := h zeroDiagonalExample ⟨0, by decide, by simp [zeroDiagonalExample, ofRows]⟩
  rw [backSubstitution_eq] at hcode
  cases hcode

/-- Claim C7, amended: `backSubstitution` makes no test of the diagonal and has no failure
path; for every input matrix, whether or not its diagonal contains a zero entry, it
returns a solution matrix and never ends in a fatal error. -/
theorem backSubstitution_always_returns (m : Matrix) :
    (∃ x, backSubstitution m = Except.ok x) ∧ ∀ code, backSubstitution m ≠ Except.error code := by
  refine ⟨⟨_, backSubstitution_eq m⟩, ?_⟩
  intro code h
  rw [backSubstitution_eq] at h
  cases h

/-! ## Properties of `solveTriangularMatrix` -/

theorem crout_systemExample :
    triangularFactorizationCrouts systemExample = Except.ok (systemExample, systemFactors) := by
  have hF : croutRowLoop systemExample 1 0 (croutColumnLoop systemExample 1 1
      (croutRowLoop systemExample 0 1 (croutColumnLoop systemExample 0 2 (zeros 2 2)))) =
      systemFactors := by
    simp only [systemFactors, ofRows, zeros, croutRowLoop, croutColumnLoop, croutSum, setEntry,
      systemExample]
    congr 1
    funext a b
    rcases a with _ | _ | a <;> rcases b with _ | _ | b <;> norm_num
  have h00 : systemExample.matrix 0 0 ≠ 0 := by simp [systemExample, ofRows]
  have h11 : systemExample.matrix 1 1 ≠ 0 := by simp [systemExample, ofRows]
  have hrows : systemExample.rows = 2 := by decide
  simp only [triangularFactorizationCrouts, hrows, croutLoop, if_neg h00, if_neg h11]
  rw [← hF]

theorem crout_singularExample :
    triangularFactorizationCrouts singularExample = Except.error 4 := by
  simp [triangularFactorizationCrouts, croutLoop, singularExample, ofRows, ULONG_SIZE,
    pivotMatrix, pivotMatrixTraced, pivotSearch, pivotScan]

theorem forwardSum_eq (F Z : Matrix) (i : Nat) :
    ∀ n : Nat, forwardSum F Z i n = ∑ j in Finset.range n, F.matrix i j * Z.matrix j 0 := by
  intro n
  induction n with
  | zero => simp [forwardSum]
  | succ n ih => rw [forwardSum, ih, Finset.sum_range_succ]

theorem forwardLoop_frame (W F : Matrix) :
    ∀ (n : Nat) (Z : Matrix) (a b : Nat), n ≤ a →
      (forwardLoop W F n Z).matrix a b = Z.matrix a b := by
  intro n
  induction n with
  | zero =>
    intro Z a b _
    rfl
  | succ n ih =>
    intro Z a b ha
    have hne : a ≠ n := by omega
    simp only [forwardLoop, setEntry]
    rw [ih Z a b (by omega)]
    simp [hne]

theorem forwardLoop_entry (W F : Matrix) :
    ∀ (n : Nat) (Z : Matrix) (a : Nat), a < n →
      (forwardLoop W F n Z).matrix a 0 =
        (W.matrix a W.lastCol -
          ∑ j in Finset.range a, F.matrix a j * (forwardLoop W F n Z).matrix j 0) /
            F.matrix a a := by
  intro n
  induction n with
  | zero =>
    intro Z a ha
    omega
  | succ n ih =>
    intro Z a ha
    have hsum : ∀ c, c ≤ n →
        ∑ j in Finset.range c, F.matrix a j * (forwardLoop W F (n + 1) Z).matrix j 0 =
        ∑ j in Finset.range c, F.matrix a j * (forwardLoop W F n Z).matrix j 0 := by
      intro c hc
      apply Finset.sum_congr rfl
      intro j hj
      have hjn : j ≠ n := by
        have := Finset.mem_range.mp hj
        omega
      simp [forwardLoop, setEntry, hjn]
    rcases Nat.lt_or_ge a n with hlt | hge
    · have han : a ≠ n := by omega
      rw [hsum a (by omega), ← ih Z a hlt]
      simp [forwardLoop, setEntry, han]
    · have han : a = n := by omega
      subst han
      rw [hsum a (le_refl _)]
      simp [forwardLoop, setEntry, forwardSum_eq]

theorem upperRowLoop_dims (F : Matrix) (i : Nat) :
    ∀ (c : Nat) (U : Matrix), (upperRowLoop F i c U).rows = U.rows ∧
      (upperRowLoop F i c U).cols = U.cols := by
  intro c
  induction c with
  | zero =>
    intro U
    exact ⟨rfl, rfl⟩
  | succ c ih =>
    intro U
    simp only [upperRowLoop, setEntry]
    exact ih U

theorem upperRowLoop_entry (F : Matrix) (i : Nat) :
    ∀ (c : Nat) (U : Matrix) (a b : Nat),
      (upperRowLoop F i c U).matrix a b =
        if a = i ∧ i + 1 ≤ b ∧ b < i + 1 + c then F.matrix i b else U.matrix a b := by
  intro c
  induction c with
  | zero =>
    intro U a b
    have hne : ¬ (a = i ∧ i + 1 ≤ b ∧ b < i + 1 + 0) := by omega
    simp only [upperRowLoop, if_neg hne]
  | succ c ih =>
    intro U a b
    simp only [upperRowLoop, setEntry]
    rw [ih U a b]
    by_cases h1 : a = i ∧ b = i + 1 + c
    · have h2 : a = i ∧ i + 1 ≤ b ∧ b < i + 1 + (c + 1) := by omega
      rw [if_pos h1, if_pos h2, h1.2]
    · rw [if_neg h1]
      by_cases h3 : a = i ∧ i + 1 ≤ b ∧ b < i + 1 + c
      · have h4 : a = i ∧ i + 1 ≤ b ∧ b < i + 1 + (c + 1) := by omega
        rw [if_pos h3, if_pos h4]
      · have h4 : ¬ (a = i ∧ i + 1 ≤ b ∧ b < i + 1 + (c + 1)) := by omega
        rw [if_neg h3, if_neg h4]

theorem upperLoop_dims (W F Z : Matrix) :
    ∀ (k : Nat) (U : Matrix), (upperLoop W F Z k U).rows = U.rows ∧
      (upperLoop W F Z k U).cols = U.cols := by
  intro k
  induction k with
  | zero =>
    intro U
    exact ⟨rfl, rfl⟩
  | succ k ih =>
    intro U
    simp only [upperLoop, setEntry]
    rw [(upperRowLoop_dims F k _ _).1, (upperRowLoop_dims F k _ _).2]
    exact ih U

theorem upperLoop_entry (W F Z : Matrix) :
    ∀ (k : Nat) (U : Matrix) (a b : Nat),
      (upperLoop W F Z k U).matrix a b =
        if a < k then
          (if b = W.lastCol then Z.matrix a 0
           else if b = a then 1
           else if a + 1 ≤ b ∧ b < W.rows then F.matrix a b
           else U.matrix a b)
        else U.matrix a b := by
  intro k
  induction k with
  | zero =>
    intro U a b
    simp [upperLoop]
  | succ k ih =>
    intro U a b
    simp only [upperLoop, setEntry]
    rw [upperRowLoop_entry, ih U a b]
    by_cases hak : a = k
    · subst hak
      have h1 : a < a + 1 := by omega
      have h2 : ¬ a < a := by omega
      rw [if_pos h1, if_neg h2]
      by_cases hb1 : b = W.lastCol
      · simp [hb1]
      · by_cases hb2 : b = a
        · simp [hb1, hb2]
        · by_cases hb3 : a + 1 ≤ b ∧ b < W.rows
          · have hb4 : a + 1 ≤ b ∧ b < a + 1 + (W.rows - (a + 1)) := by omega
            simp [hb1, hb2, hb3, hb4]
          · have hb4 : ¬ (a + 1 ≤ b ∧ b < a + 1 + (W.rows - (a + 1))) := by omega
            simp [hb1, hb2, hb3, hb4]
    · have h1 : (a < k + 1) = (a < k) := by
        apply propext
        omega
      simp [hak, h1]

theorem forwardLoop_solves (W F : Matrix) (n : Nat) (Z0 : Matrix)
    (hdiag : ∀ i, i < n → F.matrix i i ≠ 0) (i : Nat) (hi : i < n) :
    ∑ j in Finset.range n, lowerPart F i j * (forwardLoop W F n Z0).matrix j 0 =
      W.matrix i W.lastCol := by
  have hz := forwardLoop_entry W F n Z0 i hi
  have hd := hdiag i hi
  have hi1 : i + 1 ≤ n := hi
  rw [Finset.range_eq_Ico, ← Finset.sum_Ico_consecutive _ (Nat.zero_le (i + 1)) hi1]
  have hhigh : ∑ j in Finset.Ico (i + 1) n,
      lowerPart F i j * (forwardLoop W F n Z0).matrix j 0 = 0 := by
    apply Finset.sum_eq_zero
    intro j hj
    have hji : ¬ j ≤ i := by
      have := (Finset.mem_Ico.mp hj).1
      omega
    simp [lowerPart, hji]
  have hlow : ∑ j in Finset.range i,
      lowerPart F i j * (forwardLoop W F n Z0).matrix j 0 =
      ∑ j in Finset.range i, F.matrix i j * (forwardLoop W F n Z0).matrix j 0 := by
    apply Finset.sum_congr rfl
    intro j hj
    have hji : j ≤ i := le_of_lt (Finset.mem_range.mp hj)
    simp [lowerPart, hji]
  rw [hhigh, ← Finset.range_eq_Ico, Finset.sum_range_succ, hlow, add_zero]
  have hii : lowerPart F i i = F.matrix i i := by simp [lowerPart]
  rw [hii, hz]
  field_simp

theorem upperLoop_upperPart (W F Z : Matrix) (n : Nat) (hr : W.rows = n) (hc : W.cols = n + 1)
    (U0 : Matrix) (hU0 : ∀ a b, U0.matrix a b = 0) (i j : Nat) (hi : i < n) (hj : j < n) :
    (upperLoop W F Z n U0).matrix i j = upperPart F i j := by
  rw [upperLoop_entry, if_pos hi, lastCol_eq W n hc, hr]
  have h1 : j ≠ n := by omega
  rw [if_neg h1]
  by_cases h2 : j = i
  · subst h2
    simp [upperPart]
  · rw [if_neg h2]
    by_cases h3 : i < j
    · have h4 : i + 1 ≤ j ∧ j < n := ⟨h3, hj⟩
      simp [upperPart, h3, h4]
    · have h4 : ¬ (i + 1 ≤ j ∧ j < n) := by omega
      have h5 : ¬ i = j := fun h => h2 h.symm
      simp [upperPart, h3, h4, h5, hU0]

theorem upperLoop_lastCol (W F Z : Matrix) (n : Nat) (hc : W.cols = n + 1)
    (U0 : Matrix) (i : Nat) (hi : i < n) :
    (upperLoop W F Z n U0).matrix i n = Z.matrix i 0 := by
  rw [upperLoop_entry, if_pos hi, lastCol_eq W n hc]
  simp

theorem solveTriangularMatrix_eq (tf : Matrix → Except Nat (Matrix × Matrix)) (m W F : Matrix)
    (htf : tf m = Except.ok (W, F)) :
    solveTriangularMatrix tf m =
      backSubstitution (upperLoop W F (forwardLoop W F W.rows (zeros W.rows 1)) W.rows
        (zeros W.rows W.cols)) := by
  simp only [solveTriangularMatrix, htf]

theorem solveTriangularMatrix_factored (W F : Matrix) (n : Nat) (hr : W.rows = n)
    (hc : W.cols = n + 1) (hdiag : ∀ i, i < n → F.matrix i i ≠ 0)
    (hLU : ∀ i k, i < n → k < n →
      ∑ j in Finset.range n, lowerPart F i j * upperPart F j k = W.matrix i k) :
    ∃ x, backSubstitution (upperLoop W F (forwardLoop W F W.rows (zeros W.rows 1)) W.rows
        (zeros W.rows W.cols)) = Except.ok x ∧
      ∀ i, i < n → ∑ k in Finset.range n, W.matrix i k * x.matrix k 0 = W.matrix i n := by
  have hUr : (upperLoop W F (forwardLoop W F W.rows (zeros W.rows 1)) W.rows
      (zeros W.rows W.cols)).rows = n := by
    rw [(upperLoop_dims _ _ _ _ _).1, zeros_rows _ _ W.rows_lt, hr]
  have hUc : (upperLoop W F (forwardLoop W F W.rows (zeros W.rows 1)) W.rows
      (zeros W.rows W.cols)).cols = n + 1 := by
    rw [(upperLoop_dims _ _ _ _ _).2, zeros_cols _ _ W.cols_lt, hc]
  have hsol := backSubstitution_solves
    (upperLoop W F (forwardLoop W F W.rows (zeros W.rows 1)) W.rows (zeros W.rows W.cols)) n
    hUr hUc
    (by
      intro i j hji hi
      rw [hr, upperLoop_upperPart W F _ n hr hc _ (fun _ _ => rfl) i j hi (by omega)]
      have h1 : ¬ i < j := by omega
      have h2 : ¬ i = j := by omega
      simp [upperPart, h1, h2])
    (by
      intro i hi
      rw [hr, upperLoop_upperPart W F _ n hr hc _ (fun _ _ => rfl) i i hi hi]
      simp [upperPart])
  refine ⟨_, backSubstitution_eq _, ?_⟩
  generalize backSubstitutionLoop
    (upperLoop W F (forwardLoop W F W.rows (zeros W.rows 1)) W.rows (zeros W.rows W.cols))
    (upperLoop W F (forwardLoop W F W.rows (zeros W.rows 1)) W.rows (zeros W.rows W.cols)).rows
    (zeros (upperLoop W F (forwardLoop W F W.rows (zeros W.rows 1)) W.rows
      (zeros W.rows W.cols)).rows 1) = x at hsol ⊢
  intro i hi
  have hU : ∀ j, j < n → ∑ k in Finset.range n, upperPart F j k * x.matrix k 0 =
      (forwardLoop W F n (zeros n 1)).matrix j 0 := by
    intro j hj
    have h := hsol j hj
    rw [hr, upperLoop_lastCol W F _ n hc _ j hj] at h
    rw [← h]
    apply Finset.sum_congr rfl
    intro k hk
    rw [upperLoop_upperPart W F _ n hr hc _ (fun _ _ => rfl) j k hj (Finset.mem_range.mp hk)]
  have hZ := forwardLoop_solves W F n (zeros n 1) hdiag i hi
  rw [lastCol_eq W n hc] at hZ
  calc ∑ k in Finset.range n, W.matrix i k * x.matrix k 0
      = ∑ k in Finset.range n,
          (∑ j in Finset.range n, lowerPart F i j * upperPart F j k) * x.matrix k 0 := by
        apply Finset.sum_congr rfl
        intro k hk
        rw [hLU i k hi (Finset.mem_range.mp hk)]
    _ = ∑ k in Finset.range n, ∑ j in Finset.range n,
          lowerPart F i j * (upperPart F j k * x.matrix k 0) := by
        apply Finset.sum_congr rfl
        intro k _
        rw [Finset.sum_mul]
        apply Finset.sum_congr rfl
        intro j _
        ring
    _ = ∑ j in Finset.range n, ∑ k in Finset.range n,
          lowerPart F i j * (upperPart F j k * x.matrix k 0) := Finset.sum_comm
    _ = ∑ j in Finset.range n, lowerPart F i j * (forwardLoop W F n (zeros n 1)).matrix j 0 := by
        apply Finset.sum_congr rfl
        intro j hj
        rw [← Finset.mul_sum, hU j (Finset.mem_range.mp hj)]
    _ = W.matrix i n := hZ

/-- Claim C1: for an `n x (n+1)` augmented matrix `[A|b]` over exact arithmetic, if
`triangularFactorizationCrouts` leaves the working copy as `[A'|b']`, a row permutation of
`[A|b]`, and returns factors encoding `L` (entries on and below the diagonal, every
diagonal entry non-zero) and `U` (entries strictly above the diagonal, diagonal taken as
`1`) with `L * U = A'`, then the vector `x` returned by `solveTriangularMatrix` satisfies
the system: `A * x = b`. -/
theorem solveTriangularMatrix_solves (tf : Matrix → Except Nat (Matrix × Matrix))
    (m W F : Matrix) (n : Nat) (hr : m.rows = n) (hc : m.cols = n + 1)
    (htf : tf m = Except.ok (W, F)) (hWr : W.rows = m.rows) (hWc : W.cols = m.cols)
    (σ : Equiv.Perm (Fin n))
    (hperm : ∀ (i : Fin n) (j : Nat), j ≤ n → W.matrix i j = m.matrix (σ i) j)
    (hdiag : ∀ i, i < n → F.matrix i i ≠ 0)
    (hLU : ∀ i k, i < n → k < n →
      ∑ j in Finset.range n, lowerPart F i j * upperPart F j k = W.matrix i k) :
    ∃ x, solveTriangularMatrix tf m = Except.ok x ∧
      ∀ i, i < n → ∑ j in Finset.range n, m.matrix i j * x.matrix j 0 = m.matrix i n := by
  obtain ⟨x, hx, hsol⟩ :=
    solveTriangularMatrix_factored W F n (hWr.trans hr) (hWc.trans hc) hdiag hLU
  refine ⟨x, by rw [solveTriangularMatrix_eq tf m W F htf, hx], ?_⟩
  intro i hi
  have hrow := hsol (σ.symm ⟨i, hi⟩) (σ.symm ⟨i, hi⟩).isLt
  have hback : ∀ j, j ≤ n → W.matrix (σ.symm ⟨i, hi⟩) j = m.matrix i j := by
    intro j hj
    rw [hperm (σ.symm ⟨i, hi⟩) j hj]
    simp
  rw [hback n (le_refl n)] at hrow
  rw [← hrow]
  apply Finset.sum_congr rfl
  intro j hj
  rw [hback j (le_of_lt (Finset.mem_range.mp hj))]

theorem systemExample_solution (tf : Matrix → Except Nat (Matrix × Matrix)) (F : Matrix)
    (htf : tf systemExample = Except.ok (systemExample, F))
    (h00 : F.matrix 0 0 = 4) (h10 : F.matrix 1 0 = 2) (h11 : F.matrix 1 1 = 5 / 2)
    (h01 : F.matrix 0 1 = 1 / 4) :
    ∃ x, solveTriangularMatrix tf systemExample = Except.ok x ∧
      x.matrix 0 0 = 1 / 10 ∧ x.matrix 1 0 = 3 / 5 := by
  have hrows : systemExample.rows = 2 := by decide
  have hcols : systemExample.cols = 2 + 1 := by decide
  have hlast : systemExample.lastCol = 2 := lastCol_eq _ 2 hcols
  have hb0 : systemExample.matrix 0 2 = 1 := by simp [systemExample, ofRows]
  have hb1 : systemExample.matrix 1 2 = 2 := by simp [systemExample, ofRows]
  have hZ0 : (forwardLoop systemExample F 2 (zeros 2 1)).matrix 0 0 = 1 / 4 := by
    rw [forwardLoop_entry systemExample F 2 _ 0 (by decide), hlast, hb0, h00]
    simp
  have hZ1 : (forwardLoop systemExample F 2 (zeros 2 1)).matrix 1 0 = 3 / 5 := by
    rw [forwardLoop_entry systemExample F 2 _ 1 (by decide), hlast, hb1, h11,
      Finset.sum_range_one, hZ0, h10]
    norm_num
  have hzr : (zeros 2 1).rows = 2 := by decide
  have hU : ∀ i j, i < 2 → j < 2 →
      (upperLoop systemExample F (forwardLoop systemExample F 2 (zeros 2 1)) 2
        (zeros 2 systemExample.cols)).matrix i j = upperPart F i j :=
    fun i j hi hj => upperLoop_upperPart systemExample F _ 2 hrows hcols _ (fun _ _ => rfl) i j hi hj
  have hUZ : ∀ i, i < 2 →
      (upperLoop systemExample F (forwardLoop systemExample F 2 (zeros 2 1)) 2
        (zeros 2 systemExample.cols)).matrix i 2 =
        (forwardLoop systemExample F 2 (zeros 2 1)).matrix i 0 :=
    fun i hi => upperLoop_lastCol systemExample F _ 2 hcols _ i hi
  have hUl : (upperLoop systemExample F (forwardLoop systemExample F 2 (zeros 2 1)) 2
        (zeros 2 systemExample.cols)).lastCol = 2 := by
    apply lastCol_eq
    rw [(upperLoop_dims _ _ _ _ _).2]
    decide
  have hx1 : (backSubstitutionLoop (upperLoop systemExample F
      (forwardLoop systemExample F 2 (zeros 2 1)) 2 (zeros 2 systemExample.cols)) 2
      (zeros 2 1)).matrix 1 0 = 3 / 5 := by
    rw [backSubstitutionLoop_entry _ 2 _ 1 (by decide), hUl, hzr, hUZ 1 (by decide),
      hU 1 1 (by decide) (by decide), hZ1]
    simp [upperPart]
  have hx0 : (backSubstitutionLoop (upperLoop systemExample F
      (forwardLoop systemExample F 2 (zeros 2 1)) 2 (zeros 2 systemExample.cols)) 2
      (zeros 2 1)).matrix 0 0 = 1 / 10 := by
    rw [backSubstitutionLoop_entry _ 2 _ 0 (by decide), hUl, hzr, hUZ 0 (by decide),
      hU 0 0 (by decide) (by decide), hZ0]
    have hI : Finset.Ico (0 + 1) 2 = {1} := by decide
    rw [hI, Finset.sum_singleton, hx1, hU 0 1 (by decide) (by decide)]
    simp only [upperPart, h01]
    norm_num
  rw [solveTriangularMatrix_eq tf _ _ F htf, backSubstitution_eq]
  refine ⟨_, rfl, ?_, ?_⟩
  all_goals
    rw [(upperLoop_dims _ _ _ _ _).1, zeros_rows _ _ (Matrix.rows_lt _)]
    simp only [hrows]
  · exact hx0
  · exact hx1

theorem systemFactors_entries :
    systemFactors.matrix 0 0 = 4 ∧ systemFactors.matrix 1 0 = 2 ∧
    systemFactors.matrix 1 1 = 5 / 2 ∧ systemFactors.matrix 0 1 = 1 / 4 := by
  simp [systemFactors, ofRows]

theorem systemFactors_diag : ∀ i, i < 2 → systemFactors.matrix i i ≠ 0 := by
  intro i hi
  interval_cases i <;> simp [systemFactors, ofRows]

theorem systemFactors_product : ∀ i k, i < 2 → k < 2 →
    ∑ j in Finset.range 2, lowerPart systemFactors i j * upperPart systemFactors j k =
      systemExample.matrix i k := by
  intro i k hi hk
  interval_cases i <;> interval_cases k <;>
    norm_num [Finset.sum_range_succ, lowerPart, upperPart, systemFactors, systemExample, ofRows]

theorem solveTriangularMatrix_solves_witness :
    ∃ x, solveTriangularMatrix triangularFactorizationCrouts systemExample = Except.ok x ∧
      ∀ i, i < 2 →
        ∑ j in Finset.range 2, systemExample.matrix i j * x.matrix j 0 =
          systemExample.matrix i 2 :=
  solveTriangularMatrix_solves triangularFactorizationCrouts systemExample systemExample
    systemFactors 2 (by decide) (by decide) crout_systemExample rfl rfl (Equiv.refl (Fin 2))
    (fun _ _ _ => rfl) systemFactors_diag systemFactors_product

/-- Claim C3, as stated, fails: with the factorization returning the Crout factors
`L = [[4, 0], [2, 2.5]]`, `U[0][1] = 0.25` for `[[4, 1, 1], [2, 3, 2]]`, the vector returned
by `solveTriangularMatrix` is not within `1e-3` of `[0.0909, 0.6364]`. -/
theorem solveTriangularMatrix_example_not_spec_values :
    ¬ (∀ (tf : Matrix → Except Nat (Matrix × Matrix)) (F : Matrix),
        tf systemExample = Except.ok (systemExample, F) →
        F.matrix 0 0 = 4 → F.matrix 1 0 = 2 → F.matrix 1 1 = 5 / 2 → F.matrix 0 1 = 1 / 4 →
        ∃ x, solveTriangularMatrix tf systemExample = Except.ok x ∧
          |x.matrix 0 0 - 909 / 10000| < 1 / 1000 ∧
          |x.matrix 1 0 - 6364 / 10000| < 1 / 1000) := by
  intro h
  obtain ⟨h00, h10, h11, h01⟩ := systemFactors_entries
  obtain ⟨x, hx, hx0, _⟩ :=
    h triangularFactorizationCrouts systemFactors crout_systemExample h00 h10 h11 h01
  obtain ⟨y, hy, hy0, _⟩ :=
    systemExample_solution triangularFactorizationCrouts systemFactors crout_systemExample
      h00 h10 h11 h01
  rw [hx] at hy
  have hxy : x = y := by
    cases hy
    rfl
  rw [hxy, hy0, abs_lt] at hx0
  norm_num at hx0

/-- Claim C3, amended: for the augmented system `[[4, 1, 1], [2, 3, 2]]`, with the
factorization leaving the working copy as it is and returning the Crout factors
`L = [[4, 0], [2, 2.5]]`, `U[0][1] = 0.25`, `solveTriangularMatrix` returns exactly
`x = [1/10, 3/5]`, the solution of `4x + y = 1`, `2x + 3y = 2`. -/
theorem solveTriangularMatrix_example (tf : Matrix → Except Nat (Matrix × Matrix)) (F : Matrix)
    (htf : tf systemExample = Except.ok (systemExample, F))
    (h00 : F.matrix 0 0 = 4) (h10 : F.matrix 1 0 = 2) (h11 : F.matrix 1 1 = 5 / 2)
    (h01 : F.matrix 0 1 = 1 / 4) :
    ∃ x, solveTriangularMatrix tf systemExample = Except.ok x ∧
      x.matrix 0 0 = 1 / 10 ∧ x.matrix 1 0 = 3 / 5 ∧
      4 * x.matrix 0 0 + x.matrix 1 0 = 1 ∧ 2 * x.matrix 0 0 + 3 * x.matrix 1 0 = 2 := by
  obtain ⟨x, hx, hx0, hx1⟩ := systemExample_solution tf F htf h00 h10 h11 h01
  refine ⟨x, hx, hx0, hx1, ?_, ?_⟩
  · rw [hx0, hx1]
    norm_num
  · rw [hx0, hx1]
    norm_num

theorem solveTriangularMatrix_example_witness :
    ∃ x, solveTriangularMatrix triangularFactorizationCrouts systemExample = Except.ok x ∧
      x.matrix 0 0 = 1 / 10 ∧ x.matrix 1 0 = 3 / 5 ∧
      4 * x.matrix 0 0 + x.matrix 1 0 = 1 ∧ 2 * x.matrix 0 0 + 3 * x.matrix 1 0 = 2 :=
  solveTriangularMatrix_example triangularFactorizationCrouts systemFactors crout_systemExample
    systemFactors_entries.1 systemFactors_entries.2.1 systemFactors_entries.2.2.1
    systemFactors_entries.2.2.2

/-- Claim C9: whenever `triangularFactorizationCrouts` fails (pivoting finds no usable row),
`solveTriangularMatrix` fails with that same error and returns no solution vector. -/
theorem solveTriangularMatrix_propagates_failure
    (tf : Matrix → Except Nat (Matrix × Matrix)) (m : Matrix) (code : Nat)
    (hfail : tf m = Except.error code) :
    solveTriangularMatrix tf m = Except.error code ∧
      ¬ ∃ x, solveTriangularMatrix tf m = Except.ok x := by
  have h : solveTriangularMatrix tf m = Except.error code := by
    simp only [solveTriangularMatrix, hfail]
  refine ⟨h, ?_⟩
  rintro ⟨x, hx⟩
  rw [h] at hx
  cases hx

theorem solveTriangularMatrix_propagates_failure_witness :
    triangularFactorizationCrouts singularExample = Except.error 4 ∧
    solveTriangularMatrix triangularFactorizationCrouts singularExample = Except.error 4 ∧
      ¬ ∃ x, solveTriangularMatrix triangularFactorizationCrouts singularExample = Except.ok x :=
  ⟨crout_singularExample,
    solveTriangularMatrix_propagates_failure triangularFactorizationCrouts singularExample 4
      crout_singularExample⟩

/-- Claim C10: for an input matrix with `r` rows (and at least `r` columns) on which they
return, `backSubstitution` and `solveTriangularMatrix` (the factorization keeping the row
count of its working copy) each return a matrix with exactly `r` rows and 1 column. -/
theorem solvers_return_column (tf : Matrix → Except Nat (Matrix × Matrix)) (m : Matrix)
    (r : Nat) (hr : m.rows = r) (_hcols : r ≤ m.cols)
    (hkeep : ∀ W F, tf m = Except.ok (W, F) → W.rows = m.rows) :
    (∀ x, backSubstitution m = Except.ok x → x.rows = r ∧ x.cols = 1) ∧
    (∀ x, solveTriangularMatrix tf m = Except.ok x → x.rows = r ∧ x.cols = 1) := by
  have hback : ∀ (u x : Matrix), backSubstitution u = Except.ok x →
      x.rows = u.rows ∧ x.cols = 1 := by
    intro u x hx
    rw [backSubstitution_eq] at hx
    have hxe : x = backSubstitutionLoop u u.rows (zeros u.rows 1) := by
      cases hx
      rfl
    rw [hxe, (backSubstitutionLoop_rows u _ _).1, (backSubstitutionLoop_rows u _ _).2,
      zeros_rows _ _ u.rows_lt]
    exact ⟨rfl, zeros_cols _ 1 (by decide)⟩
  constructor
  · intro x hx
    rw [← hr]
    exact hback m x hx
  · intro x hx
    cases htf : tf m with
    | error code =>
      simp only [solveTriangularMatrix, htf] at hx
      cases hx
    | ok p =>
      obtain ⟨W, F⟩ := p
      rw [solveTriangularMatrix_eq tf m W F htf] at hx
      obtain ⟨h1, h2⟩ := hback _ x hx
      rw [(upperLoop_dims _ _ _ _ _).1, zeros_rows _ _ W.rows_lt, hkeep W F htf, hr] at h1
      exact ⟨h1, h2⟩

theorem solvers_return_column_witness :
    (∀ x, backSubstitution systemExample = Except.ok x → x.rows = 2 ∧ x.cols = 1) ∧
    (∀ x, solveTriangularMatrix triangularFactorizationCrouts systemExample = Except.ok x →
      x.rows = 2 ∧ x.cols = 1) :=
  solvers_return_column triangularFactorizationCrouts systemExample 2 (by decide) (by decide)
    (by
      intro W F h
      rw [crout_systemExample] at h
      cases h
      rfl)

/-! ## Frame properties -/

/-- Claim C15: whenever `pivotMatrix(pivotRow)` returns without error for
`pivotRow < rows`, the found index `i` satisfies `pivotRow < i < rows` (so the interchange
is in bounds), the resulting matrix is the original with exactly rows `pivotRow` and `i`
exchanged, every other row is unchanged, and the row and column counts are unchanged. -/
theorem pivotMatrix_frame (m m' : Matrix) (pivotRow : Nat) (hp : pivotRow < m.rows)
    (hret : pivotMatrix m pivotRow = Except.ok m') :
    ∃ i, pivotMatrixCalls m pivotRow = [(pivotRow, i)] ∧ pivotRow < i ∧ i < m.rows ∧
      (∀ j, m'.matrix pivotRow j = m.matrix i j) ∧
      (∀ j, m'.matrix i j = m.matrix pivotRow j) ∧
      (∀ r j, r ≠ pivotRow → r ≠ i → m'.matrix r j = m.matrix r j) ∧
      m'.rows = m.rows ∧ m'.cols = m.cols := by
  obtain ⟨h1, h2, _, _⟩ := pivotSearch_spec m pivotRow hp
  by_cases hs : pivotSearch m pivotRow = m.rows
  · simp only [pivotMatrix, pivotMatrixTraced, if_pos hs] at hret
    cases hret
  · simp only [pivotMatrix, pivotMatrixTraced, if_neg hs] at hret
    have hm : m' = m.interchangeRows pivotRow (pivotSearch m pivotRow) := by
      cases hret
      rfl
    have hne : pivotSearch m pivotRow ≠ pivotRow := by omega
    refine ⟨pivotSearch m pivotRow, ?_, h1, by omega, ?_, ?_, ?_, ?_, ?_⟩
    · simp only [pivotMatrixCalls, pivotMatrixTraced, if_neg hs]
    · intro j
      rw [hm]
      simp [interchangeRows]
    · intro j
      rw [hm]
      simp [interchangeRows, hne]
    · intro r j hr1 hr2
      rw [hm]
      simp [interchangeRows, hr1, hr2]
    · rw [hm]
      rfl
    · rw [hm]
      rfl

theorem pivotMatrix_frame_witness :
    ∃ i, pivotMatrixCalls pivotExample 0 = [(0, i)] ∧ 0 < i ∧ i < pivotExample.rows ∧
      (∀ j, (pivotExample.interchangeRows 0 1).matrix 0 j = pivotExample.matrix i j) ∧
      (∀ j, (pivotExample.interchangeRows 0 1).matrix i j = pivotExample.matrix 0 j) ∧
      (∀ r j, r ≠ 0 → r ≠ i →
        (pivotExample.interchangeRows 0 1).matrix r j = pivotExample.matrix r j) ∧
      (pivotExample.interchangeRows 0 1).rows = pivotExample.rows ∧
      (pivotExample.interchangeRows 0 1).cols = pivotExample.cols :=
  pivotMatrix_frame pivotExample (pivotExample.interchangeRows 0 1) 0 (by decide)
    (by simp [pivotMatrix, pivotMatrixTraced, pivotSearch, pivotScan, pivotExample, ofRows,
      ULONG_SIZE])

theorem backSubstitutionSum_congr (m1 m2 sol : Matrix) (i : Nat)
    (hagree : ∀ k, i ≤ k → k < m1.rows → m1.matrix (i - 1) k = m2.matrix (i - 1) k) :
    ∀ (j : Nat) (s : ℚ), j ≤ m1.rows →
      backSubstitutionSum m1 sol i j s = backSubstitutionSum m2 sol i j s := by
  intro j
  induction j with
  | zero =>
    intro s _
    rfl
  | succ j ih =>
    intro s hj
    by_cases h : j + 1 > i
    · simp only [backSubstitutionSum, if_pos h]
      rw [hagree j (by omega) (by omega)]
      exact ih _ (by omega)
    · simp only [backSubstitutionSum, if_neg h]

theorem backSubstitutionLoop_congr (m1 m2 : Matrix) (hrows : m1.rows = m2.rows)
    (hlast : m1.lastCol = m2.lastCol)
    (hupper : ∀ i j, i < m1.rows → i ≤ j → j < m1.rows → m1.matrix i j = m2.matrix i j)
    (hrhs : ∀ i, i < m1.rows → m1.matrix i m1.lastCol = m2.matrix i m1.lastCol) :
    ∀ (i : Nat) (sol : Matrix), i ≤ m1.rows → sol.rows = m1.rows →
      backSubstitutionLoop m1 i sol = backSubstitutionLoop m2 i sol := by
  intro i
  induction i with
  | zero =>
    intro sol _ _
    rfl
  | succ i ih =>
    intro sol hi hsol
    simp only [backSubstitutionLoop]
    rw [backSubstitutionSum_congr m1 m2 sol (i + 1)
        (fun k hk1 hk2 => hupper i k (by omega) (by omega) hk2) sol.rows 0 (by omega),
      hupper i i (by omega) (le_refl _) (by omega), ← hlast, hrhs i (by omega)]
    exact ih _ (by omega) hsol

/-- Claim C14: `backSubstitution` never reads entries below the diagonal: two matrices of
the same dimensions that agree on every entry on or above the diagonal within the first
`rows` columns and on the last column give the same returned vector; in particular a
matrix that is not upper triangular is solved as if its lower part were zero. -/
theorem backSubstitution_ignores_lower (m1 m2 : Matrix) (hrows : m1.rows = m2.rows)
    (hcols : m1.cols = m2.cols)
    (hupper : ∀ i j, i < m1.rows → i ≤ j → j < m1.rows → m1.matrix i j = m2.matrix i j)
    (hrhs : ∀ i, i < m1.rows → m1.matrix i m1.lastCol = m2.matrix i m1.lastCol) :
    backSubstitution m1 = backSubstitution m2 := by
  have hlast : m1.lastCol = m2.lastCol := by simp only [lastCol, hcols]
  rw [backSubstitution_eq, backSubstitution_eq, ← hrows]
  rw [backSubstitutionLoop_congr m1 m2 hrows hlast hupper hrhs m1.rows (zeros m1.rows 1)
    (le_refl _) (zeros_rows _ _ m1.rows_lt)]

theorem backSubstitution_ignores_lower_witness :
    lowerNoiseExample.matrix 1 0 ≠ 0 ∧
    backSubstitution lowerNoiseExample = backSubstitution backExample :=
  ⟨by simp [lowerNoiseExample, ofRows],
   backSubstitution_ignores_lower lowerNoiseExample backExample (by decide) (by decide)
    (by
      intro i j hi hij hj
      have hi2 : i < 2 := hi
      have hj2 : j < 2 := hj
      interval_cases i <;> interval_cases j <;> simp_all [lowerNoiseExample, backExample, ofRows])
    (by
      intro i hi
      have hi2 : i < 2 := hi
      have hl : lowerNoiseExample.lastCol = 2 := lastCol_eq _ 2 (by decide)
      rw [hl]
      interval_cases i <;> simp [lowerNoiseExample, backExample, ofRows])⟩

/-! ## The accesses of `backSubstitution` -/

theorem ulongPred_eq (v : Nat) (h0 : 0 < v) (hv : v < ULONG_SIZE) : ulongPred v = v - 1 := by
  simp only [ulongPred, ULONG_SIZE] at *
  omega

theorem backSubstitutionSum_of_le (m sol : Matrix) (i j : Nat) (s : ℚ) (hji : j ≤ i) :
    backSubstitutionSum m sol i j s = s := by
  rw [backSubstitutionSum_eq, Finset.Ico_eq_empty_of_le hji]
  simp

theorem backSubstitutionSumTraced_spec (m sol : Matrix) (i : Nat) (hi : 1 ≤ i)
    (hiu : i < ULONG_SIZE) :
    ∀ (fuel j : Nat) (s : ℚ) (tr : List Event), j ≤ fuel → j < ULONG_SIZE →
      ∃ tr', backSubstitutionSumTraced m sol i fuel j (s, tr) =
          some (backSubstitutionSum m sol i j s, tr ++ tr') ∧
        ∀ e ∈ tr', ∃ k, i ≤ k ∧ k < j ∧
          (e = Event.matrixRead (i - 1) k ∨ e = Event.solutionRead k ∨
            e = Event.decrement (k + 1)) := by
  intro fuel
  induction fuel with
  | zero =>
    intro j s tr hj _
    have hj0 : ¬ j > i := by omega
    refine ⟨[], ?_, ?_⟩
    · simp only [backSubstitutionSumTraced, if_neg hj0, List.append_nil]
      rw [backSubstitutionSum_of_le m sol i j s (by omega)]
    · intro e he
      cases he
  | succ fuel ih =>
    intro j s tr hj hju
    by_cases hgt : j > i
    · obtain ⟨j', rfl⟩ : ∃ j', j = j' + 1 := ⟨j - 1, by omega⟩
      have hpj : ulongPred (j' + 1) = j' := by
        rw [ulongPred_eq _ (by omega) hju]
        rfl
      have hpi : ulongPred i = i - 1 := ulongPred_eq i hi hiu
      obtain ⟨tr'', heq, hev⟩ := ih j' (s + m.matrix (i - 1) j' * sol.matrix j' 0)
        (tr ++ [Event.matrixRead (i - 1) j', Event.solutionRead j', Event.decrement (j' + 1)])
        (by omega) (by omega)
      refine ⟨[Event.matrixRead (i - 1) j', Event.solutionRead j',
        Event.decrement (j' + 1)] ++ tr'', ?_, ?_⟩
      · simp only [backSubstitutionSumTraced, if_pos hgt, hpj, hpi, backSubstitutionSum]
        rw [heq, List.append_assoc]
      · intro e he
        rcases List.mem_append.mp he with h | h
        · refine ⟨j', by omega, by omega, ?_⟩
          simp only [List.mem_cons, List.mem_singleton] at h
          rcases h with h | h | h | h
          · exact Or.inl h
          · exact Or.inr (Or.inl h)
          · exact Or.inr (Or.inr h)
          · cases h
        · obtain ⟨k, hk1, hk2, hk3⟩ := hev e h
          exact ⟨k, hk1, by omega, hk3⟩
    · refine ⟨[], ?_, ?_⟩
      · simp only [backSubstitutionSumTraced, if_neg hgt, List.append_nil]
        rw [backSubstitutionSum_of_le m sol i j s (by omega)]
      · intro e he
        cases he

theorem Event.ofBackSubstitution_mono (rows last i i' : Nat) (hii : i ≤ i') (e : Event)
    (h : Event.ofBackSubstitution rows last i e) : Event.ofBackSubstitution rows last i' e := by
  rcases h with ⟨r, k, h1, h2, h3, h4⟩ | ⟨r, h1, h2⟩
  · exact Or.inl ⟨r, k, by omega, h2, h3, h4⟩
  · exact Or.inr ⟨r, by omega, h2⟩

theorem backSubstitutionLoopTraced_spec (m : Matrix) :
    ∀ (fuel i : Nat) (sol : Matrix) (tr : List Event), i ≤ fuel → i ≤ sol.rows →
      ∃ tr', backSubstitutionLoopTraced m fuel i (sol, tr) =
          some (backSubstitutionLoop m i sol, tr ++ tr') ∧
        ∀ e ∈ tr', Event.ofBackSubstitution sol.rows m.lastCol i e := by
  intro fuel
  induction fuel with
  | zero =>
    intro i sol tr hi _
    have hi0 : i = 0 := by omega
    subst hi0
    refine ⟨[], ?_, ?_⟩
    · simp [backSubstitutionLoopTraced, backSubstitutionLoop]
    · intro e he
      cases he
  | succ fuel ih =>
    intro i sol tr hi hrows
    have hsu := sol.rows_lt
    rcases Nat.eq_zero_or_pos i with hi0 | hpos
    · subst hi0
      refine ⟨[], ?_, ?_⟩
      · simp [backSubstitutionLoopTraced, backSubstitutionLoop]
      · intro e he
        cases he
    · obtain ⟨i', rfl⟩ : ∃ i', i = i' + 1 := ⟨i - 1, by omega⟩
      have hpi : ulongPred (i' + 1) = i' := by
        rw [ulongPred_eq _ hpos (by omega)]
        rfl
      obtain ⟨tr1, hinner, hev1⟩ := backSubstitutionSumTraced_spec m sol (i' + 1) (by omega)
        (by omega) sol.rows sol.rows 0 tr (le_refl _) hsu
      obtain ⟨tr2, houter, hev2⟩ := ih i'
        (sol.setEntry i' 0 ((m.matrix i' m.lastCol -
          backSubstitutionSum m sol (i' + 1) sol.rows 0) / m.matrix i' i'))
        ((tr ++ tr1) ++ [Event.matrixRead i' m.lastCol, Event.matrixRead i' i',
          Event.divide i', Event.solutionWrite i', Event.decrement (i' + 1)])
        (by omega) (by
          have : (sol.setEntry i' 0 ((m.matrix i' m.lastCol -
            backSubstitutionSum m sol (i' + 1) sol.rows 0) / m.matrix i' i')).rows = sol.rows :=
            rfl
          omega)
      refine ⟨tr1 ++ ([Event.matrixRead i' m.lastCol, Event.matrixRead i' i',
          Event.divide i', Event.solutionWrite i', Event.decrement (i' + 1)] ++ tr2), ?_, ?_⟩
      · simp only [backSubstitutionLoopTraced, if_pos hpos, hinner, hpi, backSubstitutionLoop]
        rw [houter]
        simp only [List.append_assoc]
      · intro e he
        rcases List.mem_append.mp he with h | h
        · obtain ⟨k, hk1, hk2, hk3⟩ := hev1 e h
          exact Or.inl ⟨i', k, by omega, by omega, hk2, hk3⟩
        · rcases List.mem_append.mp h with h | h
          · refine Or.inr ⟨i', by omega, ?_⟩
            simp only [List.mem_cons, List.mem_singleton] at h
            rcases h with h | h | h | h | h | h
            · exact Or.inl h
            · exact Or.inr (Or.inl h)
            · exact Or.inr (Or.inr (Or.inl h))
            · exact Or.inr (Or.inr (Or.inr (Or.inl h)))
            · exact Or.inr (Or.inr (Or.inr (Or.inr h)))
            · cases h
          · exact Event.ofBackSubstitution_mono _ _ i' (i' + 1) (by omega) e (hev2 e h)

theorem backSubstitutionTraced_spec (m : Matrix) :
    ∃ tr, backSubstitutionTraced m =
        some (backSubstitutionLoop m m.rows (zeros m.rows 1), tr) ∧
      ∀ e ∈ tr, Event.ofBackSubstitution m.rows m.lastCol m.rows e := by
  have hz : (zeros m.rows 1).rows = m.rows := zeros_rows _ _ m.rows_lt
  obtain ⟨tr, h1, h2⟩ := backSubstitutionLoopTraced_spec m m.rows m.rows (zeros m.rows 1) []
    (le_refl _) (by omega)
  refine ⟨tr, ?_, ?_⟩
  · simp only [backSubstitutionTraced, hz]
    rw [h1, List.nil_append]
  · intro e he
    have := h2 e he
    rw [hz] at this
    exact this

theorem Event.inBounds_of_ofBackSubstitution (m : Matrix) (hc : 1 ≤ m.cols)
    (hrc : m.rows ≤ m.cols) (e : Event)
    (h : Event.ofBackSubstitution m.rows m.lastCol m.rows e) : e.inBounds m := by
  have hl : m.lastCol < m.cols := by
    have := m.cols_lt
    simp only [lastCol, ULONG_SIZE] at *
    omega
  rcases h with ⟨r, k, h1, _, h3, h4 | h4 | h4⟩ | ⟨r, h1, h4 | h4 | h4 | h4 | h4⟩ <;>
    subst h4 <;> simp only [Event.inBounds] <;> omega

/-- Claim C13: for a matrix with `cols >= 1` and `rows <= cols`, every element access made
by `backSubstitution` is in bounds (row index `< rows`, column index `< cols`, solution
index `< rows`), and its two count-down loops over `ulong` counters terminate, each
within `rows` iterations, without ever decrementing a counter that holds zero; this
includes `rows = 0`. -/
theorem backSubstitution_accesses_in_bounds (m : Matrix) (hc : 1 ≤ m.cols)
    (hrc : m.rows ≤ m.cols) :
    ∃ x tr, backSubstitutionTraced m = some (x, tr) ∧ backSubstitution m = Except.ok x ∧
      ∀ e ∈ tr, e.inBounds m := by
  obtain ⟨tr, h1, h2⟩ := backSubstitutionTraced_spec m
  exact ⟨_, tr, h1, backSubstitution_eq m,
    fun e he => Event.inBounds_of_ofBackSubstitution m hc hrc e (h2 e he)⟩

theorem backExample_trace :
    (backSubstitutionTraced backExample).map Prod.snd =
      some [Event.matrixRead 1 2, Event.matrixRead 1 1, Event.divide 1, Event.solutionWrite 1,
        Event.decrement 2,
        Event.matrixRead 0 1, Event.solutionRead 1, Event.decrement 2,
        Event.matrixRead 0 2, Event.matrixRead 0 0, Event.divide 0, Event.solutionWrite 0,
        Event.decrement 1] := by
  decide

theorem backSubstitution_accesses_in_bounds_witness :
    (∃ x tr, backSubstitutionTraced backExample = some (x, tr) ∧
      backSubstitution backExample = Except.ok x ∧ ∀ e ∈ tr, e.inBounds backExample) ∧
    (∃ x tr, backSubstitutionTraced (zeros 0 1) = some (x, tr) ∧
      backSubstitution (zeros 0 1) = Except.ok x ∧ ∀ e ∈ tr, e.inBounds (zeros 0 1)) :=
  ⟨backSubstitution_accesses_in_bounds backExample (by decide) (by decide),
   backSubstitution_accesses_in_bounds (zeros 0 1) (by decide) (by decide)⟩

/-! ## The phases of `solveTriangularMatrix` -/

theorem solveTriangularMatrix_phases (tf : Matrix → Except Nat (Matrix × Matrix))
    (m W F : Matrix) (htf : tf m = Except.ok (W, F)) :
    solveTriangularMatrix tf m = backSubstitution (assembledUpperTriangular W F) := by
  rw [solveTriangularMatrix_eq tf m W F htf]
  rfl

/-- Claim C11: in `solveTriangularMatrix` on an `n x (n+1)` input, the forward pass computes
`Z` with `Z[i] = (b[i] - sum over j < i of L[i][j] * Z[j]) / L[i][i]` for every `i < n`,
where `L[i][j]` are the returned factor entries on and below the diagonal and `b` is the
last column of the working copy as left by the factorization; hence, when every `L[i][i]`
is non-zero, `L * Z = b` exactly. -/
theorem solveTriangularMatrix_forward_pass (tf : Matrix → Except Nat (Matrix × Matrix))
    (m W F : Matrix) (n : Nat) (hr : m.rows = n) (hc : m.cols = n + 1)
    (htf : tf m = Except.ok (W, F)) (hWr : W.rows = m.rows) (hWc : W.cols = m.cols) :
    solveTriangularMatrix tf m =
      backSubstitution (upperLoop W F (forwardPass W F) W.rows (zeros W.rows W.cols)) ∧
    (∀ i, i < n → (forwardPass W F).matrix i 0 =
      (W.matrix i n - ∑ j in Finset.range i, F.matrix i j * (forwardPass W F).matrix j 0) /
        F.matrix i i) ∧
    ((∀ i, i < n → F.matrix i i ≠ 0) → ∀ i, i < n →
      ∑ j in Finset.range n, lowerPart F i j * (forwardPass W F).matrix j 0 = W.matrix i n) := by
  have hrow : W.rows = n := hWr.trans hr
  have hlast : W.lastCol = n := lastCol_eq W n (hWc.trans hc)
  refine ⟨solveTriangularMatrix_eq tf m W F htf, ?_, ?_⟩
  · intro i hi
    have h := forwardLoop_entry W F W.rows (zeros W.rows 1) i (by omega)
    rw [hlast] at h
    exact h
  · intro hdiag i hi
    have h := forwardLoop_solves W F n (zeros n 1) hdiag i hi
    rw [hlast] at h
    simp only [forwardPass, hrow]
    exact h

theorem solveTriangularMatrix_forward_pass_witness :
    solveTriangularMatrix triangularFactorizationCrouts systemExample =
      backSubstitution (upperLoop systemExample systemFactors
        (forwardPass systemExample systemFactors) systemExample.rows
        (zeros systemExample.rows systemExample.cols)) ∧
    (∀ i, i < 2 → (forwardPass systemExample systemFactors).matrix i 0 =
      (systemExample.matrix i 2 - ∑ j in Finset.range i,
        systemFactors.matrix i j * (forwardPass systemExample systemFactors).matrix j 0) /
        systemFactors.matrix i i) ∧
    ((∀ i, i < 2 → systemFactors.matrix i i ≠ 0) → ∀ i, i < 2 →
      ∑ j in Finset.range 2,
        lowerPart systemFactors i j * (forwardPass systemExample systemFactors).matrix j 0 =
          systemExample.matrix i 2) :=
  solveTriangularMatrix_forward_pass triangularFactorizationCrouts systemExample systemExample
    systemFactors 2 (by decide) (by decide) crout_systemExample rfl rfl

/-- Claim C12: in `solveTriangularMatrix` on an `n x (n+1)` input, the matrix handed to
`backSubstitution` has every diagonal entry equal to `1`, every entry below the diagonal
equal to `0`, the factor's entries strictly above the diagonal, and `Z` as its last
column; consequently no division of the final back substitution has a zero divisor and
the result satisfies `x[i] = Z[i] - sum over j > i of U[i][j] * x[j]`. -/
theorem solveTriangularMatrix_assembled (tf : Matrix → Except Nat (Matrix × Matrix))
    (m W F : Matrix) (n : Nat) (hr : m.rows = n) (hc : m.cols = n + 1)
    (htf : tf m = Except.ok (W, F)) (hWr : W.rows = m.rows) (hWc : W.cols = m.cols) :
    solveTriangularMatrix tf m = backSubstitution (assembledUpperTriangular W F) ∧
    ((assembledUpperTriangular W F).rows = n ∧ (assembledUpperTriangular W F).cols = n + 1) ∧
    (∀ i, i < n → (assembledUpperTriangular W F).matrix i i = 1) ∧
    (∀ i j, j < i → i < n → (assembledUpperTriangular W F).matrix i j = 0) ∧
    (∀ i j, i < j → j < n → (assembledUpperTriangular W F).matrix i j = F.matrix i j) ∧
    (∀ i, i < n → (assembledUpperTriangular W F).matrix i n = (forwardPass W F).matrix i 0) ∧
    (∃ x tr, backSubstitutionTraced (assembledUpperTriangular W F) = some (x, tr) ∧
      solveTriangularMatrix tf m = Except.ok x ∧
      (∀ e ∈ tr, e.divisorNonzero (assembledUpperTriangular W F)) ∧
      ∀ i, i < n → x.matrix i 0 =
        (forwardPass W F).matrix i 0 -
          ∑ j in Finset.Ico (i + 1) n, F.matrix i j * x.matrix j 0) := by
  have hrow : W.rows = n := hWr.trans hr
  have hcol : W.cols = n + 1 := hWc.trans hc
  have hUr : (assembledUpperTriangular W F).rows = n := by
    simp only [assembledUpperTriangular]
    rw [(upperLoop_dims _ _ _ _ _).1, zeros_rows _ _ W.rows_lt, hrow]
  have hUc : (assembledUpperTriangular W F).cols = n + 1 := by
    simp only [assembledUpperTriangular]
    rw [(upperLoop_dims _ _ _ _ _).2, zeros_cols _ _ W.cols_lt, hcol]
  have hU : ∀ i j, i < n → j < n →
      (assembledUpperTriangular W F).matrix i j = upperPart F i j := by
    intro i j hi hj
    simp only [assembledUpperTriangular, hrow]
    exact upperLoop_upperPart W F _ n hrow hcol _ (fun _ _ => rfl) i j hi hj
  have hUZ : ∀ i, i < n →
      (assembledUpperTriangular W F).matrix i n = (forwardPass W F).matrix i 0 := by
    intro i hi
    simp only [assembledUpperTriangular, hrow]
    exact upperLoop_lastCol W F _ n hcol _ i hi
  have hdiag : ∀ i, i < n → (assembledUpperTriangular W F).matrix i i = 1 := by
    intro i hi
    rw [hU i i hi hi]
    simp [upperPart]
  have hsolve := solveTriangularMatrix_phases tf m W F htf
  obtain ⟨tr, htr, hev⟩ := backSubstitutionTraced_spec (assembledUpperTriangular W F)
  refine ⟨hsolve, ⟨hUr, hUc⟩, hdiag, ?_, ?_, hUZ, ?_⟩
  · intro i j hji hi
    rw [hU i j hi (by omega)]
    have h1 : ¬ i < j := by omega
    have h2 : ¬ i = j := by omega
    simp [upperPart, h1, h2]
  · intro i j hij hj
    rw [hU i j (by omega) hj]
    simp [upperPart, hij]
  · refine ⟨_, tr, htr, by rw [hsolve, backSubstitution_eq], ?_, ?_⟩
    · intro e he
      rcases hev e he with ⟨r, k, _, _, _, h4 | h4 | h4⟩ | ⟨r, h1, h4 | h4 | h4 | h4 | h4⟩ <;>
        subst h4 <;> simp only [Event.divisorNonzero, ne_eq, not_false_eq_true]
      rw [hUr] at h1
      rw [hdiag r h1]
      exact one_ne_zero
    · intro i hi
      have hx := backSubstitutionLoop_entry (assembledUpperTriangular W F)
        (assembledUpperTriangular W F).rows (zeros (assembledUpperTriangular W F).rows 1) i
        (by omega)
      rw [zeros_rows _ _ (Matrix.rows_lt _), lastCol_eq _ n hUc, hUr, hUZ i hi, hdiag i hi,
        div_one] at hx
      rw [hUr, hx]
      congr 1
      apply Finset.sum_congr rfl
      intro j hj
      have hj1 := (Finset.mem_Ico.mp hj)
      rw [hU i j hi hj1.2]
      have hij : i < j := by omega
      simp [upperPart, hij]

theorem solveTriangularMatrix_assembled_witness :
    solveTriangularMatrix triangularFactorizationCrouts systemExample =
      backSubstitution (assembledUpperTriangular systemExample systemFactors) ∧
    ((assembledUpperTriangular systemExample systemFactors).rows = 2 ∧
      (assembledUpperTriangular systemExample systemFactors).cols = 2 + 1) ∧
    (∀ i, i < 2 → (assembledUpperTriangular systemExample systemFactors).matrix i i = 1) ∧
    (∀ i j, j < i → i < 2 →
      (assembledUpperTriangular systemExample systemFactors).matrix i j = 0) ∧
    (∀ i j, i < j → j < 2 →
      (assembledUpperTriangular systemExample systemFactors).matrix i j =
        systemFactors.matrix i j) ∧
    (∀ i, i < 2 → (assembledUpperTriangular systemExample systemFactors).matrix i 2 =
      (forwardPass systemExample systemFactors).matrix i 0) ∧
    (∃ x tr, backSubstitutionTraced (assembledUpperTriangular systemExample systemFactors) =
        some (x, tr) ∧
      solveTriangularMatrix triangularFactorizationCrouts systemExample = Except.ok x ∧
      (∀ e ∈ tr, e.divisorNonzero (assembledUpperTriangular systemExample systemFactors)) ∧
      ∀ i, i < 2 → x.matrix i 0 =
        (forwardPass systemExample systemFactors).matrix i 0 -
          ∑ j in Finset.Ico (i + 1) 2, systemFactors.matrix i j * x.matrix j 0) :=
  solveTriangularMatrix_assembled triangularFactorizationCrouts systemExample systemExample
    systemFactors 2 (by decide) (by decide) crout_systemExample rfl rfl

end Matrix

end NumericalMethods
